import Mathlib

/-!
Verification development for the chunking and lexical-retrieval engine of the
alzheimer-rag-agent repository.  Python strings are embedded as `List Char`,
Python floats as `ℚ` (the scoring arithmetic is exact decimal arithmetic),
Python ints as `ℤ` where negative values are observable (`top_k`) and as `ℕ`
elsewhere.  Each definition is a direct translation of the corresponding
function in `src/data_processor.py` or `src/simple_rag_pipeline.py`.
-/

namespace ARag

/-- Whitespace test used by Python `str.strip`, `str.split()` and the regex
class `\s` (ASCII fragment; the six Python whitespace characters). -/
def pyIsSpace (c : Char) : Bool :=
  c = ' ' || c = '\t' || c = '\n' || c = '\x0b' || c = '\x0c' || c = '\r'

/-- Left part of Python `str.strip`: drop leading whitespace. -/
def stripL (l : List Char) : List Char := l.dropWhile pyIsSpace

/-- Right part of Python `str.strip`: drop trailing whitespace. -/
def stripR (l : List Char) : List Char := (l.reverse.dropWhile pyIsSpace).reverse

/-- Python `str.strip()`. -/
def pyStrip (l : List Char) : List Char := stripR (stripL l)

/-- Sentence-ending punctuation of the fallback tokenizer regex `[.!?]+`. -/
def isPunct (c : Char) : Bool := c = '.' || c = '!' || c = '?'

/-- Python `re.split` on single punctuation characters.  Splitting on every
single `[.!?]` character differs from splitting on maximal `[.!?]+` runs only
by extra empty pieces, which `sent_tokenize` filters out below. -/
def splitPunct : List Char → List (List Char)
  | [] => [[]]
  | c :: cs =>
    if isPunct c then [] :: splitPunct cs
    else
      match splitPunct cs with
      | [] => [[c]]
      | p :: ps => (c :: p) :: ps

/-- Fallback `sent_tokenize` of `data_processor.py` (lines 21-25): split on
punctuation runs, strip each piece, and drop the pieces that strip to empty. -/
def sent_tokenize (text : List Char) : List (List Char) :=
  ((splitPunct text).map pyStrip).filter (fun s => s ≠ [])

/-- Python slice `l[-n:]` for `n > 0`: the trailing `min n (length l)` items. -/
def takeRight (n : ℕ) (l : List Char) : List Char := l.drop (l.length - n)

/-- Loop body of `TextProcessor.chunk_text` (lines 194-227).  State: the list
of sentences still to process, the running buffer `current_chunk` and the
counter `current_length` (which the source keeps separately from the real
buffer length).  Emitted chunk texts are produced in order. -/
def chunkCore (cs co : ℕ) : List (List Char) → List Char → ℕ → List (List Char)
  | [], buf, _ => if pyStrip buf ≠ [] then [pyStrip buf] else []
  | s :: ss, buf, cl =>
    if cs < cl + s.length then
      (if buf ≠ [] then [pyStrip buf] else []) ++
      (if 0 < co then
        let buf2 := takeRight co buf ++ ' ' :: s
        chunkCore cs co ss buf2 buf2.length
      else
        chunkCore cs co ss s s.length)
    else
      chunkCore cs co ss (buf ++ ' ' :: s) (cl + s.length)

/-- Chunk texts returned by `TextProcessor.chunk_text` (lines 174-228) with
`chunk_size = cs` and `chunk_overlap = co`.  Every chunk dictionary built by
the source pairs one of these texts with the single constant `metadata`
argument, so only the texts are modelled. -/
def chunk_text (cs co : ℕ) (text : List Char) : List (List Char) :=
  if text = [] then [] else chunkCore cs co (sent_tokenize text) [] 0

/-- Ordered coverage: the sentences can be matched, left to right, to the
chunks, each sentence occurring inside its chunk, without reordering and
without dropping a sentence. -/
def covered : List (List Char) → List (List Char) → Prop
  | [], _ => True
  | _ :: _, [] => False
  | s :: ss, c :: cks => (s <:+: c ∧ covered ss (c :: cks)) ∨ covered (s :: ss) cks
termination_by ss cks => ss.length + cks.length
decreasing_by all_goals simp_arith

/-- Lowercase ASCII letters, the characters kept (lowercased) by `clean_text`. -/
def lowerChars : List Char :=
  ['a', 'b', 'c', 'd', 'e', 'f', 'g', 'h', 'i', 'j', 'k', 'l', 'm',
   'n', 'o', 'p', 'q', 'r', 's', 't', 'u', 'v', 'w', 'x', 'y', 'z']

/-- Uppercase ASCII letters. -/
def upperChars : List Char :=
  ['A', 'B', 'C', 'D', 'E', 'F', 'G', 'H', 'I', 'J', 'K', 'L', 'M',
   'N', 'O', 'P', 'Q', 'R', 'S', 'T', 'U', 'V', 'W', 'X', 'Y', 'Z']

/-- Python `str.lower` on a single character (ASCII fragment; non-ASCII cased
characters are replaced by a space later in `clean_text`, and the pipeline
inputs relevant to the claims are ASCII). -/
def pyToLower (c : Char) : Char :=
  match c with
  | 'A' => 'a' | 'B' => 'b' | 'C' => 'c' | 'D' => 'd' | 'E' => 'e'
  | 'F' => 'f' | 'G' => 'g' | 'H' => 'h' | 'I' => 'i' | 'J' => 'j'
  | 'K' => 'k' | 'L' => 'l' | 'M' => 'm' | 'N' => 'n' | 'O' => 'o'
  | 'P' => 'p' | 'Q' => 'q' | 'R' => 'r' | 'S' => 's' | 'T' => 't'
  | 'U' => 'u' | 'V' => 'v' | 'W' => 'w' | 'X' => 'x' | 'Y' => 'y'
  | 'Z' => 'z'
  | _ => c

/-- Python `str.lower` on a string. -/
def pyLower (l : List Char) : List Char := l.map pyToLower

/-- Substitution `re.sub(r'<[^>]+>', '', text)`: repeatedly delete the
leftmost greedy match of an HTML-tag-like region.  Starting at a `<`, the
greedy `[^>]+` run is everything up to the first later `>`; the match needs at
least one such character, and without a closing `>` there is no match. -/
def remTags : List Char → List Char
  | [] => []
  | c :: cs =>
    if c = '<' then
      match h : cs.dropWhile (fun x => x ≠ '>') with
      | [] => c :: remTags cs
      | _ :: after =>
        if cs.takeWhile (fun x => x ≠ '>') = [] then c :: remTags cs
        else remTags after
    else c :: remTags cs
termination_by l => l.length
decreasing_by
  · simp_arith
  · simp_arith
  · simp only [List.length_cons]
    have h1 : (cs.dropWhile (fun x => x ≠ '>')).length ≤ cs.length :=
      (List.dropWhile_sublist _).length_le
    rw [h] at h1
    simp only [List.length_cons] at h1
    omega
  · simp_arith

/-- Characters matched by the body of the URL regex of `clean_text` line 100:
the union of `[a-zA-Z]`, `[0-9]`, `[$-_@.&+]` and `[!*\(\),]`.  The final
`%XX` alternative adds nothing to a greedy run because `%` already lies in
the `$-_` range. -/
def isUrlChar (c : Char) : Bool :=
  c.isAlpha || c.isDigit || ('$' ≤ c && c ≤ '_') || c = '@' || c = '.' ||
  c = '&' || c = '+' || c = '!' || c = '*' || c = '\\' || c = '(' ||
  c = ')' || c = ',' || c = '%'

/-- Substitution removing URL-like tokens (line 100): a match is a literal
`https://` or `http://` followed by a non-empty greedy run of URL characters;
the scan deletes each leftmost match and continues after it. -/
def remUrls : List Char → List Char
  | [] => []
  | c :: cs =>
    if h8 : ("https://".toList).isPrefixOf (c :: cs) = true ∧
        ((c :: cs).drop 8).takeWhile isUrlChar ≠ [] then
      remUrls (((c :: cs).drop 8).dropWhile isUrlChar)
    else if h7 : ("http://".toList).isPrefixOf (c :: cs) = true ∧
        ((c :: cs).drop 7).takeWhile isUrlChar ≠ [] then
      remUrls (((c :: cs).drop 7).dropWhile isUrlChar)
    else c :: remUrls cs
termination_by l => l.length
decreasing_by
  · have hlen : 8 ≤ (c :: cs).length :=
      ((List.isPrefixOf_iff_prefix.mp h8.1).length_le : ("https://".toList).length ≤ _)
    have h1 : (((c :: cs).drop 8).dropWhile isUrlChar).length ≤ ((c :: cs).drop 8).length :=
      (List.dropWhile_sublist _).length_le
    rw [List.length_drop] at h1
    omega
  · have hlen : 7 ≤ (c :: cs).length :=
      ((List.isPrefixOf_iff_prefix.mp h7.1).length_le : ("http://".toList).length ≤ _)
    have h1 : (((c :: cs).drop 7).dropWhile isUrlChar).length ≤ ((c :: cs).drop 7).length :=
      (List.dropWhile_sublist _).length_le
    rw [List.length_drop] at h1
    omega
  · simp_arith

/-- Substitution `re.sub(r'\S+@\S+', '', text)`.  A match of the leftmost
greedy pattern is exactly a maximal non-whitespace run containing `@` at an
interior position (at least one non-whitespace character before and after
some `@` inside the run); such a run is deleted whole, all other characters
are kept. -/
def remEmails : List Char → List Char
  | [] => []
  | c :: cs =>
    if pyIsSpace c then c :: remEmails cs
    else
      (if (((c :: cs.takeWhile (fun x => !pyIsSpace x)).drop 1).dropLast).contains '@' then []
       else c :: cs.takeWhile (fun x => !pyIsSpace x)) ++
      remEmails (cs.dropWhile (fun x => !pyIsSpace x))
termination_by l => l.length
decreasing_by
  · simp_arith
  · simp only [List.length_cons]
    have h1 : (cs.dropWhile (fun x => !pyIsSpace x)).length ≤ cs.length :=
      (List.dropWhile_sublist _).length_le
    omega

/-- Substitution `re.sub(r'[^a-zA-Z\s]', ' ', text)`: every character that is
not an ASCII letter and not whitespace becomes a single space. -/
def toLettersSpace (l : List Char) : List Char :=
  l.map fun c => if (c ∈ lowerChars || c ∈ upperChars || pyIsSpace c) = true then c else ' '

/-- Python `str.split()`: maximal non-whitespace runs, empty pieces dropped. -/
def wsplit : List Char → List (List Char)
  | [] => []
  | c :: cs =>
    if pyIsSpace c then wsplit cs
    else (c :: cs.takeWhile (fun x => !pyIsSpace x)) :: wsplit (cs.dropWhile (fun x => !pyIsSpace x))
termination_by l => l.length
decreasing_by
  · simp_arith
  · simp only [List.length_cons]
    have h1 : (cs.dropWhile (fun x => !pyIsSpace x)).length ≤ cs.length :=
      (List.dropWhile_sublist _).length_le
    omega

/-- Python `' '.join`. -/
def joinWords : List (List Char) → List Char
  | [] => []
  | [w] => w
  | w :: ws => w ++ ' ' :: joinWords ws

/-- `TextProcessor.clean_text` (lines 80-111): lowercase, remove HTML-tag-like
regions, URL-like tokens and email-like tokens, replace every remaining
non-letter non-whitespace character by a space, and collapse whitespace. -/
def clean_text (text : List Char) : List Char :=
  if text = [] then []
  else joinWords (wsplit (toLettersSpace (remEmails (remUrls (remTags (pyLower text))))))

/-- Metadata attached to a stored chunk.  The only key `query` ever consults
is `title`; a missing key is `none`. -/
structure Metadata where
  title : Option (List Char)
deriving DecidableEq

/-- One entry of `self.documents`: the chunk dictionary with its `text` and
its optional `metadata` value (`doc.get('metadata', {})` supplies the default). -/
structure Doc where
  text : List Char
  metadata : Option Metadata
deriving DecidableEq

/-- One entry of `relevant_docs`, as built on lines 110-115. -/
structure ScoredDoc where
  chunk_id : ℕ
  text : List Char
  metadata : Metadata
  relevance_score : ℚ
deriving DecidableEq

/-- Result record of `SimpleRAGPipeline.query`. -/
structure QueryResult where
  query : List Char
  answer : List Char
  sources : List ScoredDoc
  confidence : ℚ
deriving DecidableEq

/-- The fixed domain-vocabulary set of lines 79-85. -/
def alzheimer_terms : List (List Char) :=
  ["alzheimer".toList, "disease".toList, "amyloid".toList, "tau".toList,
   "tangles".toList, "plaques".toList, "cognitive".toList, "memory".toList,
   "neurodegeneration".toList, "treatment".toList, "therapy".toList,
   "bace1".toList, "gamma-secretase".toList, "neuroinflammation".toList,
   "biomarkers".toList, "genetics".toList, "lifestyle".toList,
   "immunotherapy".toList, "synaptic".toList, "drug".toList,
   "research".toList, "study".toList, "pathology".toList,
   "progression".toList, "mechanisms".toList, "beta-secretase".toList,
   "acetylcholinesterase".toList, "microglia".toList, "astrocytes".toList,
   "blood-brain-barrier".toList, "clinical-trials".toList,
   "diagnosis".toList, "prevention".toList]

/-- Python `set(text.lower().split())`, as a duplicate-free list. -/
def wordSet (t : List Char) : List (List Char) := (wsplit (pyLower t)).dedup

/-- Cardinality of `question_words ∩ text_words` (line 74). -/
def overlap (q t : List Char) : ℕ :=
  ((wordSet q).filter (fun w => w ∈ wordSet t)).length

/-- Cardinality of `question_words ∪ text_words` (line 75). -/
def total_words (q t : List Char) : ℕ := ((wordSet q) ++ (wordSet t)).dedup.length

/-- Guarded Jaccard similarity of line 76. -/
def similarity_score (q t : List Char) : ℚ :=
  if 0 < total_words q t then (overlap q t : ℚ) / (total_words q t : ℚ) else 0

/-- Line 86: the document words meet the domain vocabulary. -/
def alzheimer_match (t : List Char) : Bool :=
  alzheimer_terms.any (fun term => term ∈ wordSet t)

/-- Line 89: distinct question words longer than two characters. -/
def question_keywords (q : List Char) : List (List Char) :=
  (wordSet q).filter (fun w => 2 < w.length)

/-- Line 90: keywords that occur as document words. -/
def keyword_matches (q t : List Char) : ℕ :=
  ((question_keywords q).filter (fun w => w ∈ wordSet t)).length

/-- Python `in` on strings (line 100: `word in text_lower`): contiguous
substring test. -/
def isSubstr : List Char → List Char → Bool
  | p, [] => p.isEmpty
  | p, c :: cs => p.isPrefixOf (c :: cs) || isSubstr p cs

/-- Lines 98-101: keywords that occur as substrings of the lowercased text. -/
def phrase_matches (q t : List Char) : ℕ :=
  ((question_keywords q).filter (fun w => isSubstr w (pyLower t))).length

/-- Lines 92-106: the composite relevance score. -/
def final_score (q t : List Char) : ℚ :=
  min 1 (similarity_score q t + (if alzheimer_match t then 0.3 else 0) +
    min ((keyword_matches q t : ℚ) * 0.2) 0.5 +
    min ((phrase_matches q t : ℚ) * 0.15) 0.4)

/-- Line 112: preview text, truncated at 800 characters. -/
def truncPreview (t : List Char) : List Char :=
  if 800 < t.length then t.take 800 ++ "...".toList else t

/-- Lines 110-115: the `relevant_docs` entry built for document index `i`. -/
def mkScored (q : List Char) (i : ℕ) (d : Doc) : ScoredDoc :=
  ⟨i + 1, truncPreview d.text, d.metadata.getD ⟨none⟩, final_score q d.text⟩

/-- Inclusion test of line 109 for one document. -/
def includesDoc (q : List Char) (d : Doc) : Prop :=
  0.01 < final_score q d.text ∨ alzheimer_match d.text = true ∨
    0 < keyword_matches q d.text

instance includesDocDecidable (q : List Char) (d : Doc) : Decidable (includesDoc q d) := by
  unfold includesDoc
  infer_instance

/-- Loop of lines 69-115 over `enumerate(self.documents)` starting at index
`i`: keep a scored entry for every document passing the inclusion test of
line 109. -/
def scoreDocs (q : List Char) : ℕ → List Doc → List ScoredDoc
  | _, [] => []
  | i, d :: ds =>
    (if includesDoc q d then [mkScored q i d] else []) ++ scoreDocs q (i + 1) ds

/-- The full `relevant_docs` list before sorting. -/
def relevant_docs (docs : List Doc) (q : List Char) : List ScoredDoc := scoreDocs q 0 docs

/-- Stable insertion for a descending sort: `a` goes in front of the first
element whose score is at most its own, hence after earlier equal scores. -/
def insertDesc (a : ScoredDoc) : List ScoredDoc → List ScoredDoc
  | [] => [a]
  | b :: bs =>
    if b.relevance_score ≤ a.relevance_score then a :: b :: bs else b :: insertDesc a bs

/-- Line 118, `relevant_docs.sort(key=..., reverse=True)`: a stable descending
sort by `relevance_score`.  Python Timsort is stable, and every stable
descending sort produces this list. -/
def sortDesc : List ScoredDoc → List ScoredDoc
  | [] => []
  | a :: rest => insertDesc a (sortDesc rest)

/-- The sorted candidate list the source keeps using after line 118. -/
def ranked (docs : List Doc) (q : List Char) : List ScoredDoc :=
  sortDesc (relevant_docs docs q)

/-- ASCII apostrophe. -/
def apos : Char := Char.ofNat 39

/-- Line 122 header of a non-empty answer. -/
def ansHeader (q : List Char) : List Char :=
  "Based on the available Alzheimer".toList ++ apos :: "s research, here".toList ++
    apos :: "s what I found about ".toList ++ apos :: q ++ apos :: ":\n\n".toList

/-- Line 127 title citation. -/
def titleLine (tl : List Char) : List Char :=
  "Research from ".toList ++ apos :: tl ++ apos :: " indicates:\n".toList

/-- Line 132 quotation of the leading 200 characters of the preview text. -/
def quoteBlock (src : List Char) : List Char :=
  '"' :: src.take 200 ++ "...\"\n\n".toList

/-- Lines 134-135 closing disclaimer. -/
def disclaimer : List Char :=
  ("This information is based on current scientific literature. " ++
   "For medical advice, please consult healthcare professionals.").toList

/-- Lines 137-138 no-information answer. -/
def noInfoAnswer (q : List Char) : List Char :=
  "No specific information found about ".toList ++ apos :: q ++
    apos :: (" in the current dataset. " ++
      "Please try a different query or add more documents to the system.").toList

/-- Lines 120-138: answer assembly from the sorted candidate list. -/
def mkAnswer (q : List Char) : List ScoredDoc → List Char
  | [] => noInfoAnswer q
  | top :: _ =>
    ansHeader q ++
    (match top.metadata.title with
     | some tl => titleLine tl
     | none => []) ++
    (if 100 < top.text.length then quoteBlock top.text else []) ++
    disclaimer

/-- Lines 140-145: confidence from the candidate list (the whole sorted
`relevant_docs`, not the truncated `sources`). -/
def confidence_of (rd : List ScoredDoc) : ℚ :=
  if rd ≠ [] then
    min 1 (0.4 + ((rd.map ScoredDoc.relevance_score).sum / (rd.length : ℚ)) * 0.6)
  else 0.3

/-- Python slice `l[:k]` for an arbitrary integer `k`. -/
def pyTake (k : ℤ) (l : List ScoredDoc) : List ScoredDoc :=
  l.take (if 0 ≤ k then k.toNat else ((l.length : ℤ) + k).toNat)

/-- `SimpleRAGPipeline.query` (lines 52-152). -/
def query (docs : List Doc) (question : List Char) (top_k : ℤ) : QueryResult :=
  { query := question
    answer := mkAnswer question (ranked docs question)
    sources := pyTake top_k (ranked docs question)
    confidence := confidence_of (ranked docs question) }

/-- `SimpleRAGPipeline.add_documents` (lines 42-50): `self.documents.extend`. -/
def add_documents (docs chunks : List Doc) : List Doc := docs ++ chunks

/-- State-threaded view of the `query` method: the call returns its result
together with the `self.documents` list the object holds afterwards.  The
method body reads `self.documents` once and assigns only local variables
(`relevant_docs.sort` sorts a local list), so the held list is returned
unchanged. -/
def queryMethod (docs : List Doc) (question : List Char) (top_k : ℤ) :
    QueryResult × List Doc :=
  (query docs question top_k, docs)

/-- Concrete store entry used in the concrete evaluations below. -/
def dAlz : Doc := ⟨"alzheimer".toList, none⟩

/-- Concrete store entry whose only word is the domain term `disease`. -/
def dDis : Doc := ⟨"disease".toList, none⟩

/-- Concrete store entry whose only word is the domain term `tau`. -/
def dTau : Doc := ⟨"tau".toList, none⟩

/-- Concrete query string `alzheimer`. -/
def qAlz : List Char := "alzheimer".toList

/-- Concrete query string `memory`. -/
def qMem : List Char := "memory".toList

/-- Descending score order with ties broken by ascending passage id, the order
the spec asserts for `rank`. -/
def rankOrder (a b : ScoredDoc) : Prop :=
  b.relevance_score < a.relevance_score ∨
    (a.relevance_score = b.relevance_score ∧ a.chunk_id < b.chunk_id)

/-- Well-formed sentence, as produced by `sent_tokenize`: non-empty and
stripped (no leading whitespace, no trailing whitespace). -/
def wfSent (s : List Char) : Prop :=
  s ≠ [] ∧ stripL s = s ∧ s.reverse.dropWhile pyIsSpace = s.reverse

/-!
Theorems.  Helper lemmas come first, then one theorem per claim (with its
witness or counterexample where required).
-/

theorem similarity_score_nonneg (q t : List Char) : 0 ≤ similarity_score q t := by
  unfold similarity_score
  split
  · positivity
  · exact le_refl 0

theorem final_score_nonneg (q t : List Char) : 0 ≤ final_score q t := by
  have h1 := similarity_score_nonneg q t
  have h2 : (0 : ℚ) ≤ (if alzheimer_match t then (0.3 : ℚ) else 0) := by
    split <;> norm_num
  have h3 : (0 : ℚ) ≤ min ((keyword_matches q t : ℚ) * 0.2) 0.5 :=
    le_min (by positivity) (by norm_num)
  have h4 : (0 : ℚ) ≤ min ((phrase_matches q t : ℚ) * 0.15) 0.4 :=
    le_min (by positivity) (by norm_num)
  unfold final_score
  exact le_min (by norm_num) (by linarith)

theorem final_score_le_one (q t : List Char) : final_score q t ≤ 1 := by
  unfold final_score
  exact min_le_left _ _

/-- C5: for every query string and every passage, the relevance score equals
`min 1 (jaccard + domain_boost + keyword_boost + phrase_boost)`, the Jaccard
part is the intersection cardinality over the union cardinality of the word
sets, guarded to `0` on an empty union, and the score lies in `[0, 1]`. -/
theorem C5_score_bounds (q t : List Char) :
    0 ≤ final_score q t ∧ final_score q t ≤ 1 ∧
    final_score q t =
      min 1 (similarity_score q t + (if alzheimer_match t then 0.3 else 0) +
        min ((keyword_matches q t : ℚ) * 0.2) 0.5 +
        min ((phrase_matches q t : ℚ) * 0.15) 0.4) ∧
    (total_words q t = 0 → similarity_score q t = 0) := by
  refine ⟨final_score_nonneg q t, final_score_le_one q t, rfl, ?_⟩
  intro h
  unfold similarity_score
  rw [h]
  norm_num

/-- Witness for C5 at concrete inputs: the empty query and passage have an
empty word union and Jaccard `0`, and a concrete score is nonnegative. -/
theorem C5_score_bounds_witness :
    similarity_score [] [] = 0 ∧ 0 ≤ final_score qAlz dAlz.text :=
  ⟨(C5_score_bounds [] []).2.2.2 (by simp [total_words, wordSet, wsplit, pyLower]),
   (C5_score_bounds qAlz dAlz.text).1⟩

/-- C2 (amended): `query` performs no validation of `top_k`.  With
`top_k = 0` it returns normally; the sources list is empty while the answer
and the confidence are still computed from the full candidate list, exactly
as for a positive `top_k`. -/
theorem C2_top_k_not_validated (docs : List Doc) (q : List Char) :
    (query docs q 0).sources = [] ∧
    (query docs q 0).answer = (query docs q 3).answer ∧
    (query docs q 0).confidence = (query docs q 3).confidence := by
  refine ⟨?_, rfl, rfl⟩
  simp [query, pyTake]

theorem score_alz_alz : final_score qAlz dAlz.text = 1 := by
  simp [qAlz, dAlz, final_score, similarity_score, overlap, total_words,
    keyword_matches, phrase_matches, question_keywords, alzheimer_match,
    alzheimer_terms, wordSet, pyLower, wsplit, pyIsSpace, pyToLower, isSubstr,
    List.isPrefixOf]
  norm_num

theorem score_alz_dis : final_score qAlz dDis.text = 0.3 := by
  simp [qAlz, dDis, final_score, similarity_score, overlap, total_words,
    keyword_matches, phrase_matches, question_keywords, alzheimer_match,
    alzheimer_terms, wordSet, pyLower, wsplit, pyIsSpace, pyToLower, isSubstr,
    List.isPrefixOf]
  norm_num

theorem includes_alz_alz : includesDoc qAlz dAlz :=
  Or.inl (by rw [score_alz_alz]; norm_num)

theorem includes_alz_dis : includesDoc qAlz dDis :=
  Or.inl (by rw [score_alz_dis]; norm_num)

theorem relevant_docs_single :
    relevant_docs [dAlz] qAlz = [⟨1, dAlz.text, ⟨none⟩, 1⟩] := by
  simp only [relevant_docs, scoreDocs, if_pos includes_alz_alz, mkScored, score_alz_alz]
  rfl

theorem ranked_single : ranked [dAlz] qAlz = [⟨1, dAlz.text, ⟨none⟩, 1⟩] := by
  rw [ranked, relevant_docs_single]
  simp only [sortDesc, insertDesc]

theorem relevant_docs_pair :
    relevant_docs [dAlz, dDis] qAlz =
      [⟨1, dAlz.text, ⟨none⟩, 1⟩, ⟨2, dDis.text, ⟨none⟩, 0.3⟩] := by
  simp only [relevant_docs, scoreDocs, if_pos includes_alz_alz, if_pos includes_alz_dis,
    mkScored, score_alz_alz, score_alz_dis]
  rfl

theorem ranked_pair :
    ranked [dAlz, dDis] qAlz =
      [⟨1, dAlz.text, ⟨none⟩, 1⟩, ⟨2, dDis.text, ⟨none⟩, 0.3⟩] := by
  rw [ranked, relevant_docs_pair]
  simp only [sortDesc, insertDesc]
  norm_num

/-- Counterexample to C2: on a one-document store, `query` with `top_k = 0`
raises nothing; it returns an ordinary `QueryResult` whose sources list is
silently empty while the answer is the information-found template and the
confidence is the one computed from the candidate list. -/
theorem C2_counterexample :
    (query [dAlz] qAlz 0).sources = [] ∧
    (query [dAlz] qAlz 0).answer ≠ noInfoAnswer qAlz ∧
    (query [dAlz] qAlz 0).confidence = 1 := by
  refine ⟨by simp [query, pyTake], ?_, ?_⟩
  · show mkAnswer qAlz (ranked [dAlz] qAlz) ≠ noInfoAnswer qAlz
    rw [ranked_single]
    decide
  · show confidence_of (ranked [dAlz] qAlz) = 1
    rw [ranked_single]
    norm_num [confidence_of, min_def, List.cons_ne_nil]

/-- Counterexample to C3: with two candidates of scores `1` and `0.3` and
`top_k = 1`, the confidence is computed from the average over all candidates
(`0.79`), not from the average over the returned sources (which would give
`1`). -/
theorem C3_counterexample :
    (query [dAlz, dDis] qAlz 1).sources ≠ [] ∧
    (query [dAlz, dDis] qAlz 1).confidence ≠
      min 1 (0.4 + ((((query [dAlz, dDis] qAlz 1).sources.map
        ScoredDoc.relevance_score).sum /
          (((query [dAlz, dDis] qAlz 1).sources.length : ℚ))) * 0.6)) := by
  have hsrc : (query [dAlz, dDis] qAlz 1).sources = [⟨1, dAlz.text, ⟨none⟩, 1⟩] := by
    show pyTake 1 (ranked [dAlz, dDis] qAlz) = _
    rw [ranked_pair]
    simp [pyTake]
  have hconf : (query [dAlz, dDis] qAlz 1).confidence = 0.79 := by
    show confidence_of (ranked [dAlz, dDis] qAlz) = _
    rw [ranked_pair]
    norm_num [confidence_of, min_def, List.cons_ne_nil]
  refine ⟨?_, ?_⟩
  · rw [hsrc]
    exact List.cons_ne_nil _ _
  · rw [hconf, hsrc]
    norm_num [min_def]

theorem insertDesc_perm (a : ScoredDoc) (l : List ScoredDoc) :
    List.Perm (insertDesc a l) (a :: l) := by
  induction l with
  | nil => rfl
  | cons b bs ih =>
    rw [insertDesc]
    split
    · rfl
    · exact (ih.cons b).trans (List.Perm.swap a b bs)

theorem sortDesc_perm (l : List ScoredDoc) : List.Perm (sortDesc l) l := by
  induction l with
  | nil => rfl
  | cons a rest ih => exact (insertDesc_perm a (sortDesc rest)).trans (ih.cons a)

theorem insertDesc_pairwise (x : ScoredDoc) (l : List ScoredDoc)
    (hl : l.Pairwise rankOrder) (hid : ∀ b ∈ l, x.chunk_id < b.chunk_id) :
    (insertDesc x l).Pairwise rankOrder := by
  induction l with
  | nil => simp [insertDesc]
  | cons b bs ih =>
    rw [List.pairwise_cons] at hl
    rw [insertDesc]
    split
    · rename_i hle
      refine List.Pairwise.cons ?_ (List.Pairwise.cons hl.1 hl.2)
      intro y hy
      rcases List.mem_cons.mp hy with rfl | hy
      · rcases lt_or_eq_of_le hle with hlt | heq
        · exact Or.inl hlt
        · exact Or.inr ⟨heq.symm, hid y (List.mem_cons_self _ _)⟩
      · have hby := hl.1 y hy
        have hyb : y.relevance_score ≤ b.relevance_score := by
          rcases hby with h | h
          · exact le_of_lt h
          · exact le_of_eq h.1.symm
        rcases lt_or_eq_of_le (le_trans hyb hle) with hlt | heq
        · exact Or.inl hlt
        · exact Or.inr ⟨heq.symm, hid y (List.mem_cons_of_mem _ hy)⟩
    · rename_i hgt
      refine List.Pairwise.cons ?_ (ih hl.2 (fun b hb => hid b (List.mem_cons_of_mem _ hb)))
      intro y hy
      rcases List.mem_cons.mp ((insertDesc_perm x bs).mem_iff.mp hy) with rfl | hy
      · exact Or.inl (lt_of_not_le hgt)
      · exact hl.1 y hy

theorem sortDesc_pairwise (l : List ScoredDoc)
    (h : l.Pairwise fun a b => a.chunk_id < b.chunk_id) :
    (sortDesc l).Pairwise rankOrder := by
  induction l with
  | nil => simp [sortDesc]
  | cons a rest ih =>
    rw [List.pairwise_cons] at h
    exact insertDesc_pairwise a (sortDesc rest) (ih h.2)
      (fun b hb => h.1 b ((sortDesc_perm rest).mem_iff.mp hb))

theorem mem_scoreDocs {q : List Char} {sd : ScoredDoc} {i : ℕ} {ds : List Doc} :
    sd ∈ scoreDocs q i ds ↔
      ∃ j d, ds.get? j = some d ∧ includesDoc q d ∧ sd = mkScored q (i + j) d := by
  induction ds generalizing i with
  | nil => simp [scoreDocs]
  | cons d ds ih =>
    have harith : ∀ j : ℕ, mkScored q (i + 1 + j) = mkScored q (i + (j + 1)) := by
      intro j
      rw [Nat.add_assoc, Nat.add_comm 1 j]
    by_cases hc : includesDoc q d
    · rw [scoreDocs, if_pos hc]
      simp only [List.mem_append, List.mem_singleton, ih]
      constructor
      · rintro (rfl | ⟨j, d₂, hj, hc₂, hsd⟩)
        · exact ⟨0, d, rfl, hc, by rw [Nat.add_zero]⟩
        · exact ⟨j + 1, d₂, by simpa using hj, hc₂, hsd.trans (by rw [harith])⟩
      · rintro ⟨j, d₂, hj, hc₂, hsd⟩
        cases j with
        | zero =>
          obtain rfl : d = d₂ := by simpa using hj
          exact Or.inl (by rw [hsd, Nat.add_zero])
        | succ j₂ =>
          exact Or.inr ⟨j₂, d₂, by simpa using hj, hc₂, hsd.trans (by rw [harith])⟩
    · rw [scoreDocs, if_neg hc]
      simp only [List.nil_append, ih]
      constructor
      · rintro ⟨j, d₂, hj, hc₂, hsd⟩
        exact ⟨j + 1, d₂, by simpa using hj, hc₂, hsd.trans (by rw [harith])⟩
      · rintro ⟨j, d₂, hj, hc₂, hsd⟩
        cases j with
        | zero =>
          obtain rfl : d = d₂ := by simpa using hj
          exact absurd hc₂ hc
        | succ j₂ =>
          exact ⟨j₂, d₂, by simpa using hj, hc₂, hsd.trans (by rw [harith])⟩

theorem scoreDocs_pairwise (q : List Char) (i : ℕ) (ds : List Doc) :
    (scoreDocs q i ds).Pairwise (fun a b => a.chunk_id < b.chunk_id) := by
  induction ds generalizing i with
  | nil => simp [scoreDocs]
  | cons d ds ih =>
    rw [scoreDocs, List.pairwise_append]
    refine ⟨?_, ih (i + 1), ?_⟩
    · split <;> simp
    · intro a ha b hb
      have ha2 : a = mkScored q i d := by
        rcases Decidable.em (includesDoc q d) with hc | hc
        · rw [if_pos hc] at ha
          simpa using ha
        · rw [if_neg hc] at ha
          simp at ha
      obtain ⟨j, d₂, hj, hc₂, hb2⟩ := mem_scoreDocs.mp hb
      rw [ha2, hb2]
      simp only [mkScored]
      omega

theorem mem_ranked_iff {docs : List Doc} {q : List Char} {sd : ScoredDoc} :
    sd ∈ ranked docs q ↔ sd ∈ relevant_docs docs q :=
  (sortDesc_perm _).mem_iff

theorem relevant_docs_score_mem {docs : List Doc} {q : List Char} {sd : ScoredDoc}
    (h : sd ∈ relevant_docs docs q) :
    0 ≤ sd.relevance_score ∧ sd.relevance_score ≤ 1 := by
  obtain ⟨j, d, hj, hc, rfl⟩ := mem_scoreDocs.mp h
  exact ⟨final_score_nonneg q d.text, final_score_le_one q d.text⟩

/-- C4: the sources of every query are sorted by descending relevance score
with ties broken by ascending passage id, and a repeated call with the same
arguments on the unchanged store returns the identical result. -/
theorem C4_ranking_order (docs : List Doc) (q : List Char) (k : ℤ) :
    (query docs q k).sources.Pairwise rankOrder ∧ query docs q k = query docs q k := by
  refine ⟨?_, rfl⟩
  have h1 : (ranked docs q).Pairwise rankOrder :=
    sortDesc_pairwise _ (scoreDocs_pairwise q 0 docs)
  have h2 : (query docs q k).sources.Sublist (ranked docs q) := List.take_sublist _ _
  exact List.Pairwise.sublist h2 h1

/-- C6: with `top_k ≥ 1`, the number of returned sources is exactly
`min top_k (number of candidates)`, and a stored passage is a candidate if
and only if it passes the inclusion test
`score > 0.01 ∨ domain match ∨ keyword_matches > 0`. -/
theorem C6_inclusion (docs : List Doc) (q : List Char) (k : ℤ) (hk : 1 ≤ k) :
    (query docs q k).sources.length = min k.toNat (relevant_docs docs q).length ∧
    ∀ i d, docs.get? i = some d →
      ((∃ sd ∈ relevant_docs docs q, sd.chunk_id = i + 1) ↔ includesDoc q d) := by
  constructor
  · show (pyTake k (ranked docs q)).length = _
    rw [pyTake, if_pos (le_trans zero_le_one hk), List.length_take]
    congr 1
    exact (sortDesc_perm _).length_eq
  · intro i d hd
    constructor
    · rintro ⟨sd, hmem, hid⟩
      obtain ⟨j, d₂, hj, hc, rfl⟩ := mem_scoreDocs.mp hmem
      have hji : j = i := by
        simp only [mkScored] at hid
        omega
      subst hji
      rw [hd] at hj
      obtain rfl : d = d₂ := by simpa using hj
      exact hc
    · intro hc
      exact ⟨mkScored q i d,
        mem_scoreDocs.mpr ⟨i, d, hd, hc, by rw [Nat.zero_add]⟩, rfl⟩

/-- Witness for C6 at a concrete store and `top_k = 3`. -/
theorem C6_inclusion_witness :
    (query [dAlz] qAlz 3).sources.length =
      min (3 : ℤ).toNat (relevant_docs [dAlz] qAlz).length :=
  (C6_inclusion [dAlz] qAlz 3 (by norm_num)).1

/-- C10: `query` never mutates the store: the state-threaded call returns the
document list unchanged, only `add_documents` extends it, and every returned
source is a freshly assembled record (truncated preview text, default-filled
metadata, computed score) derived from one stored document. -/
theorem C10_store_frame (docs : List Doc) (q : List Char) (k : ℤ) (chunks : List Doc) :
    (queryMethod docs q k).2 = docs ∧
    add_documents docs chunks = docs ++ chunks ∧
    ∀ sd ∈ (query docs q k).sources, ∃ i d, docs.get? i = some d ∧
      sd.chunk_id = i + 1 ∧ sd.text = truncPreview d.text ∧
      sd.metadata = d.metadata.getD ⟨none⟩ ∧
      sd.relevance_score = final_score q d.text := by
  refine ⟨rfl, rfl, ?_⟩
  intro sd hsd
  have h1 : sd ∈ ranked docs q := List.take_subset _ _ hsd
  have h2 : sd ∈ relevant_docs docs q := mem_ranked_iff.mp h1
  obtain ⟨j, d, hj, hc, rfl⟩ := mem_scoreDocs.mp h2
  exact ⟨j, d, hj, by simp [mkScored], rfl, rfl, rfl⟩

/-- C3 (amended): the confidence is `0.3` exactly when the candidate list
(before truncation to `top_k`) is empty; otherwise it is
`min 1 (0.4 + 0.6 * mean score over all candidates)` — the mean over the whole
ranked candidate list, not over the returned sources — and it always lies in
`[0.3, 1]`. -/
theorem C3_confidence (docs : List Doc) (q : List Char) (k : ℤ) :
    (relevant_docs docs q = [] → (query docs q k).confidence = 0.3) ∧
    (relevant_docs docs q ≠ [] →
      (query docs q k).confidence =
        min 1 (0.4 + ((((ranked docs q).map ScoredDoc.relevance_score).sum /
          (((ranked docs q).length : ℚ))) * 0.6))) ∧
    0.3 ≤ (query docs q k).confidence ∧ (query docs q k).confidence ≤ 1 := by
  have hq : (query docs q k).confidence = confidence_of (ranked docs q) := rfl
  by_cases hrd : relevant_docs docs q = []
  · have hrk : ranked docs q = [] := by rw [ranked, hrd]; rfl
    refine ⟨fun _ => ?_, fun h => absurd hrd h, ?_, ?_⟩ <;>
      rw [hq, hrk] <;> norm_num [confidence_of]
  · have hrk : ranked docs q ≠ [] := by
      intro h
      apply hrd
      have hperm : List.Perm (ranked docs q) (relevant_docs docs q) := sortDesc_perm _
      rw [h] at hperm
      exact hperm.symm.eq_nil
    have hval : confidence_of (ranked docs q) =
        min 1 (0.4 + ((((ranked docs q).map ScoredDoc.relevance_score).sum /
          (((ranked docs q).length : ℚ))) * 0.6)) := by
      rw [confidence_of, if_pos hrk]
    have hlen : 0 < (ranked docs q).length := List.length_pos.mpr hrk
    have hbound : ∀ x ∈ (ranked docs q).map ScoredDoc.relevance_score, 0 ≤ x ∧ x ≤ 1 := by
      intro x hx
      obtain ⟨sd, hsd, rfl⟩ := List.mem_map.mp hx
      exact relevant_docs_score_mem (mem_ranked_iff.mp hsd)
    have hsum0 : 0 ≤ ((ranked docs q).map ScoredDoc.relevance_score).sum :=
      List.sum_nonneg (fun x hx => (hbound x hx).1)
    have hsum1 : ((ranked docs q).map ScoredDoc.relevance_score).sum ≤
        (((ranked docs q).length : ℚ)) := by
      have h := List.sum_le_card_nsmul ((ranked docs q).map ScoredDoc.relevance_score) 1
        (fun x hx => (hbound x hx).2)
      rw [List.length_map, nsmul_eq_mul, mul_one] at h
      exact h
    have hnq : (0 : ℚ) < (((ranked docs q).length : ℚ)) := by
      exact_mod_cast hlen
    have havg0 : 0 ≤ ((ranked docs q).map ScoredDoc.relevance_score).sum /
        (((ranked docs q).length : ℚ)) := div_nonneg hsum0 (le_of_lt hnq)
    have havg1 : ((ranked docs q).map ScoredDoc.relevance_score).sum /
        (((ranked docs q).length : ℚ)) ≤ 1 := (div_le_one hnq).mpr hsum1
    refine ⟨fun h => absurd h hrd, fun _ => by rw [hq, hval], ?_, ?_⟩
    · rw [hq, hval]
      refine le_min (by norm_num) (by linarith)
    · rw [hq, hval]
      exact min_le_left _ _

/-- Witness for C3 at concrete inputs: the empty store gives confidence
exactly `0.3`, and a concrete populated store gives confidence at least
`0.3`. -/
theorem C3_confidence_witness :
    (query [] qAlz 3).confidence = 0.3 ∧ 0.3 ≤ (query [dAlz] qAlz 3).confidence :=
  ⟨(C3_confidence [] qAlz 3).1 rfl, (C3_confidence [dAlz] qAlz 3).2.2.1⟩

theorem stripL_length_le (l : List Char) : (stripL l).length ≤ l.length :=
  (List.dropWhile_sublist _).length_le

theorem stripR_length_le (l : List Char) : (stripR l).length ≤ l.length := by
  rw [stripR]
  calc ((l.reverse.dropWhile pyIsSpace).reverse).length
      = (l.reverse.dropWhile pyIsSpace).length := List.length_reverse _
    _ ≤ l.reverse.length := (List.dropWhile_sublist _).length_le
    _ = l.length := List.length_reverse _

theorem pyStrip_length_le (l : List Char) : (pyStrip l).length ≤ l.length :=
  le_trans (stripR_length_le _) (stripL_length_le _)

theorem takeRight_length_le (n : ℕ) (l : List Char) : (takeRight n l).length ≤ n := by
  rw [takeRight, List.length_drop]
  omega

theorem sent_tokenize_nonempty {text s : List Char} (h : s ∈ sent_tokenize text) :
    s ≠ [] := by
  rw [sent_tokenize] at h
  simpa using (List.mem_filter.mp h).2

/-- Length invariant of the chunking loop: with every sentence of length in
`[1, cz]` and the stated buffer invariant, every emitted chunk has length at
most `2 * cz + co`. -/
theorem chunkCore_length_le (cz co : ℕ) (hco : co < cz) (ss : List (List Char)) :
    ∀ (buf : List Char) (cl : ℕ),
      (∀ s ∈ ss, 1 ≤ s.length ∧ s.length ≤ cz) →
      buf.length ≤ 2 * cl →
      (cl ≤ cz ∨ (buf.length = cl ∧ cl ≤ cz + co + 1)) →
      ∀ c ∈ chunkCore cz co ss buf cl, c.length ≤ 2 * cz + co := by
  induction ss with
  | nil =>
    intro buf cl hss hb hinv c hc
    rw [chunkCore] at hc
    split at hc
    · rw [List.mem_singleton] at hc
      subst hc
      have h1 := pyStrip_length_le buf
      rcases hinv with h | ⟨h2, h3⟩ <;> omega
    · exact absurd hc (List.not_mem_nil c)
  | cons s ss ih =>
    intro buf cl hss hb hinv c hc
    have hs := hss s (List.mem_cons_self _ _)
    have hss2 : ∀ t ∈ ss, 1 ≤ t.length ∧ t.length ≤ cz :=
      fun t ht => hss t (List.mem_cons_of_mem _ ht)
    rw [chunkCore] at hc
    by_cases htrig : cz < cl + s.length
    · rw [if_pos htrig] at hc
      rcases List.mem_append.mp hc with hc1 | hc2
      · have hcb : c = pyStrip buf := by
          by_cases hbuf : buf ≠ []
          · rw [if_pos hbuf] at hc1
            simpa using hc1
          · rw [if_neg hbuf] at hc1
            simp at hc1
        subst hcb
        have h1 := pyStrip_length_le buf
        rcases hinv with h | ⟨h2, h3⟩ <;> omega
      · by_cases hov : 0 < co
        · rw [if_pos hov] at hc2
          refine ih _ _ hss2 (by omega) (Or.inr ⟨rfl, ?_⟩) c hc2
          have h4 := takeRight_length_le co buf
          simp only [List.length_append, List.length_cons]
          omega
        · rw [if_neg hov] at hc2
          exact ih _ _ hss2 (by omega) (Or.inl hs.2) c hc2
    · rw [if_neg htrig] at hc
      refine ih _ _ hss2 ?_ (Or.inl (by omega)) c hc
      simp only [List.length_append, List.length_cons]
      omega

/-- C1 (amended): when every sentence of the text is at most `chunk_size`
characters and `chunk_overlap < chunk_size`, every emitted chunk has length at
most `2 * chunk_size + chunk_overlap`.  The claimed bound
`chunk_size + chunk_overlap` fails because the loop counts sentence lengths
without the joining spaces and because overlap seeding adds
`chunk_overlap + 1` characters on top of a full-size sentence. -/
theorem C1_chunk_bound (cz co : ℕ) (text : List Char) (hco : co < cz)
    (hsen : ∀ s ∈ sent_tokenize text, s.length ≤ cz) :
    ∀ c ∈ chunk_text cz co text, c.length ≤ 2 * cz + co := by
  intro c hc
  rw [chunk_text] at hc
  split at hc
  · exact absurd hc (List.not_mem_nil c)
  · refine chunkCore_length_le cz co hco (sent_tokenize text) [] 0 ?_ (by simp)
      (Or.inl (Nat.zero_le _)) c hc
    intro s hs
    exact ⟨List.length_pos.mpr (sent_tokenize_nonempty hs), hsen s hs⟩

/-- Witness for C1 at `chunk_size = 5`, `chunk_overlap = 2` and the text
`aaa. bbbbb.`. -/
theorem C1_chunk_bound_witness :
    (2 < 5) ∧ (∀ s ∈ sent_tokenize ("aaa. bbbbb.".toList), s.length ≤ 5) ∧
    ∀ c ∈ chunk_text 5 2 ("aaa. bbbbb.".toList), c.length ≤ 2 * 5 + 2 :=
  ⟨by norm_num, by decide, C1_chunk_bound 5 2 _ (by norm_num) (by decide)⟩

/-- Counterexample to C1: with `chunk_size = 5` and `chunk_overlap = 2`, the
text `aaa. bbbbb.` has sentences `aaa` and `bbbbb` of lengths at most `5`,
yet `chunk_text` emits the chunk `aa bbbbb` of length `8 > 5 + 2`: the
overlap seeding produces `overlap ++ space ++ sentence`. -/
theorem C1_counterexample :
    (∀ s ∈ sent_tokenize ("aaa. bbbbb.".toList), s.length ≤ 5) ∧ (2 < 5) ∧
    ∃ c ∈ chunk_text 5 2 ("aaa. bbbbb.".toList), 5 + 2 < c.length := by
  refine ⟨by decide, by norm_num, by decide⟩

theorem head_not_space_of_stripL {c : Char} {cs : List Char}
    (h : stripL (c :: cs) = c :: cs) : pyIsSpace c = false := by
  by_cases hp : pyIsSpace c
  · exfalso
    rw [stripL, List.dropWhile_cons, if_pos hp] at h
    have h1 : (cs.dropWhile pyIsSpace).length ≤ cs.length :=
      (List.dropWhile_sublist _).length_le
    have h2 := congrArg List.length h
    simp only [List.length_cons] at h2
    omega
  · simpa using hp

theorem stripL_idem (l : List Char) : stripL (stripL l) = stripL l :=
  List.dropWhile_idempotent _ _

theorem stripR_front (l : List Char) : stripR l <+: l := by
  rw [stripR]
  have h1 : l.reverse.dropWhile pyIsSpace <:+ l.reverse := List.dropWhile_suffix _
  have h2 := List.reverse_prefix.mpr h1
  rwa [List.reverse_reverse] at h2

theorem stripL_stripR {y : List Char} (hy : stripL y = y) :
    stripL (stripR y) = stripR y := by
  cases hsr : stripR y with
  | nil => rfl
  | cons c cs =>
    have hpre : c :: cs <+: y := by rw [← hsr]; exact stripR_front y
    obtain ⟨t, ht⟩ := hpre
    have hc : pyIsSpace c = false := by
      apply @head_not_space_of_stripL c (cs ++ t)
      have := hy
      rw [← ht] at this
      simpa using this
    rw [stripL, List.dropWhile_cons, if_neg (by simp [hc])]

theorem wfSent_pyStrip {x : List Char} (h : pyStrip x ≠ []) : wfSent (pyStrip x) := by
  refine ⟨h, ?_, ?_⟩
  · exact stripL_stripR (stripL_idem x)
  · show (stripR (stripL x)).reverse.dropWhile pyIsSpace = (stripR (stripL x)).reverse
    rw [stripR, List.reverse_reverse, List.dropWhile_idempotent]

theorem sent_tokenize_wf {text s : List Char} (h : s ∈ sent_tokenize text) :
    wfSent s := by
  have hne := sent_tokenize_nonempty h
  rw [sent_tokenize] at h
  obtain ⟨hmem, _⟩ := List.mem_filter.mp h
  obtain ⟨p, _, rfl⟩ := List.mem_map.mp hmem
  exact wfSent_pyStrip hne

theorem wfSent_witness {s : List Char} (hw : wfSent s) :
    ∃ ch ∈ s, pyIsSpace ch = false := by
  obtain ⟨hne, hL, _⟩ := hw
  cases s with
  | nil => exact absurd rfl hne
  | cons c cs => exact ⟨c, List.mem_cons_self _ _, head_not_space_of_stripL hL⟩

theorem suffix_stripL {s : List Char} (hs : s ≠ []) (hhd : stripL s = s) :
    ∀ {x : List Char}, s <:+ x → s <:+ stripL x := by
  intro x
  induction x with
  | nil =>
    intro h
    rw [List.suffix_nil] at h
    exact absurd h hs
  | cons c cs ih =>
    intro h
    rcases List.suffix_cons_iff.mp h with rfl | h2
    · rw [hhd]
    · rw [stripL, List.dropWhile_cons]
      split
      · exact ih h2
      · exact h

theorem suffix_pyStrip {s x : List Char} (hw : wfSent s) (h : s <:+ x) :
    s <:+ pyStrip x := by
  obtain ⟨hne, hL, hR⟩ := hw
  have h1 : s <:+ stripL x := suffix_stripL hne hL h
  have h2 : s.reverse <+: (stripL x).reverse := List.reverse_prefix.mpr h1
  have hsr : stripR (stripL x) = stripL x := by
    cases hrev : s.reverse with
    | nil => simp at hrev; exact absurd hrev hne
    | cons c cr =>
      rw [hrev] at h2
      obtain ⟨c₂, ys, hys⟩ : ∃ c₂ ys, (stripL x).reverse = c₂ :: ys := by
        cases hx : (stripL x).reverse with
        | nil =>
          rw [hx] at h2
          obtain ⟨t, ht⟩ := h2
          simp at ht
        | cons a b => exact ⟨a, b, rfl⟩
      rw [hys] at h2
      obtain ⟨rfl, -⟩ := List.cons_prefix_cons.mp h2
      have hc : pyIsSpace c = false := by
        apply @head_not_space_of_stripL c cr
        rw [hrev] at hR
        exact hR
      rw [stripR, hys, List.dropWhile_cons, if_neg (by simp [hc]), ← hys,
        List.reverse_reverse]
  rw [pyStrip, hsr]
  exact h1

theorem dropWhile_head_false {p : Char → Bool} {l : List Char} {c : Char}
    {cs : List Char} (h : l.dropWhile p = c :: cs) : p c = false := by
  induction l with
  | nil => simp at h
  | cons a as ih =>
    rw [List.dropWhile_cons] at h
    split at h
    · exact ih h
    · rename_i hp
      injection h with h1 h2
      subst h1
      simpa using hp

theorem pyStrip_ne_nil {b : List Char} (h : ∃ ch ∈ b, pyIsSpace ch = false) :
    pyStrip b ≠ [] := by
  obtain ⟨ch, hmem, hch⟩ := h
  have hL : stripL b ≠ [] := by
    rw [Ne, stripL, List.dropWhile_eq_nil_iff]
    intro hall
    rw [hall ch hmem] at hch
    exact Bool.true_eq_false.mp hch
  cases hsl : stripL b with
  | nil => exact absurd hsl hL
  | cons c cs =>
    have hc : pyIsSpace c = false := dropWhile_head_false (p := pyIsSpace) (l := b) hsl
    rw [pyStrip, hsl, Ne, stripR]
    intro hcon
    have hrev : (c :: cs).reverse.dropWhile pyIsSpace = [] := by
      have := congrArg List.reverse hcon
      simpa using this
    rw [List.dropWhile_eq_nil_iff] at hrev
    have hcmem : c ∈ (c :: cs).reverse := List.mem_reverse.mpr (List.mem_cons_self _ _)
    rw [hrev c hcmem] at hc
    exact Bool.true_eq_false.mp hc

theorem stripR_front_append (x t : List Char) : stripR x <+: stripR (x ++ t) := by
  rw [stripR, stripR, List.reverse_append, List.dropWhile_append]
  split
  · exact List.prefix_refl _
  · rw [List.reverse_append, List.reverse_reverse]
    exact (stripR_front x).trans (List.prefix_append _ _)

theorem pyStrip_front_append {b : List Char} (t : List Char)
    (h : ∃ ch ∈ b, pyIsSpace ch = false) : pyStrip b <+: pyStrip (b ++ t) := by
  have hL : stripL b ≠ [] := by
    obtain ⟨ch, hmem, hch⟩ := h
    rw [Ne, stripL, List.dropWhile_eq_nil_iff]
    intro hall
    rw [hall ch hmem] at hch
    exact Bool.true_eq_false.mp hch
  have hne : ¬((List.dropWhile pyIsSpace b).isEmpty = true) := by
    rw [List.isEmpty_iff]
    exact hL
  have hsplit : stripL (b ++ t) = stripL b ++ t := by
    rw [stripL, List.dropWhile_append, if_neg hne]
    rfl
  rw [pyStrip, pyStrip, hsplit]
  exact stripR_front_append _ _

/-- The first chunk produced from a buffer holding at least one non-space
character starts with the stripped buffer as a prefix. -/
theorem chunkCore_first_chunk (cz co : ℕ) (ss : List (List Char)) :
    ∀ (buf : List Char) (cl : ℕ), (∃ ch ∈ buf, pyIsSpace ch = false) →
      ∃ c rest, chunkCore cz co ss buf cl = c :: rest ∧ pyStrip buf <+: c := by
  induction ss with
  | nil =>
    intro buf cl hbuf
    rw [chunkCore, if_pos (pyStrip_ne_nil hbuf)]
    exact ⟨pyStrip buf, [], rfl, List.prefix_refl _⟩
  | cons s ss ih =>
    intro buf cl hbuf
    have hbne : buf ≠ [] := by
      obtain ⟨ch, hmem, -⟩ := hbuf
      exact List.ne_nil_of_mem hmem
    rw [chunkCore]
    by_cases htrig : cz < cl + s.length
    · rw [if_pos htrig, if_pos hbne]
      exact ⟨pyStrip buf, _, rfl, List.prefix_refl _⟩
    · rw [if_neg htrig]
      obtain ⟨c, rest, heq, hpre⟩ := ih (buf ++ ' ' :: s) (cl + s.length)
        ⟨hbuf.choose, List.mem_append_left _ hbuf.choose_spec.1, hbuf.choose_spec.2⟩
      exact ⟨c, rest, heq, (pyStrip_front_append _ hbuf).trans hpre⟩

theorem covered_append_left {ss L : List (List Char)} (X : List (List Char))
    (h : covered ss L) : covered ss (X ++ L) := by
  induction X with
  | nil => simpa
  | cons x xs ih =>
    cases ss with
    | nil => simp [covered]
    | cons s ss2 =>
      show covered (s :: ss2) (x :: (xs ++ L))
      rw [covered]
      exact Or.inr ih

/-- Every sentence fed to the chunking loop occurs, in order, inside one of
the emitted chunks. -/
theorem chunkCore_covered (cz co : ℕ) (ss : List (List Char)) :
    ∀ (buf : List Char) (cl : ℕ), (∀ s ∈ ss, wfSent s) →
      covered ss (chunkCore cz co ss buf cl) := by
  induction ss with
  | nil =>
    intro buf cl _
    simp [covered]
  | cons s ss ih =>
    intro buf cl hwf
    have hws : wfSent s := hwf s (List.mem_cons_self _ _)
    have hws2 : ∀ t ∈ ss, wfSent t := fun t ht => hwf t (List.mem_cons_of_mem _ ht)
    obtain ⟨chw, hchmem, hchns⟩ := wfSent_witness hws
    rw [chunkCore]
    by_cases htrig : cz < cl + s.length
    · rw [if_pos htrig]
      by_cases hov : 0 < co
      · rw [if_pos hov]
        apply covered_append_left
        have hwit : ∃ ch ∈ takeRight co buf ++ ' ' :: s, pyIsSpace ch = false :=
          ⟨chw, List.mem_append_right _ (List.mem_cons_of_mem _ hchmem), hchns⟩
        obtain ⟨c, rest, heq, hpre⟩ :=
          chunkCore_first_chunk cz co ss (takeRight co buf ++ ' ' :: s) _ hwit
        have hsuf : s <:+ takeRight co buf ++ ' ' :: s :=
          (List.suffix_cons ' ' s).trans (List.suffix_append _ _)
        have hin : s <:+: c :=
          ((suffix_pyStrip hws hsuf).isInfix).trans (hpre.isInfix)
        rw [heq, covered]
        exact Or.inl ⟨hin, by rw [← heq]; exact ih _ _ hws2⟩
      · rw [if_neg hov]
        apply covered_append_left
        have hwit : ∃ ch ∈ s, pyIsSpace ch = false := ⟨chw, hchmem, hchns⟩
        obtain ⟨c, rest, heq, hpre⟩ := chunkCore_first_chunk cz co ss s _ hwit
        have hin : s <:+: c :=
          ((suffix_pyStrip hws (List.suffix_refl s)).isInfix).trans (hpre.isInfix)
        rw [heq, covered]
        exact Or.inl ⟨hin, by rw [← heq]; exact ih _ _ hws2⟩
    · rw [if_neg htrig]
      have hwit : ∃ ch ∈ buf ++ ' ' :: s, pyIsSpace ch = false :=
        ⟨chw, List.mem_append_right _ (List.mem_cons_of_mem _ hchmem), hchns⟩
      obtain ⟨c, rest, heq, hpre⟩ :=
        chunkCore_first_chunk cz co ss (buf ++ ' ' :: s) _ hwit
      have hsuf : s <:+ buf ++ ' ' :: s :=
        (List.suffix_cons ' ' s).trans (List.suffix_append _ _)
      have hin : s <:+: c :=
        ((suffix_pyStrip hws hsuf).isInfix).trans (hpre.isInfix)
      rw [heq, covered]
      exact Or.inl ⟨hin, by rw [← heq]; exact ih _ _ hws2⟩

/-- C9: for every text and every chunking configuration, each sentence of the
sentence segmenter appears inside some emitted chunk, in the original order,
with no sentence dropped. -/
theorem C9_coverage (cz co : ℕ) (text : List Char) :
    covered (sent_tokenize text) (chunk_text cz co text) := by
  rw [chunk_text]
  split
  · rename_i hempty
    subst hempty
    have hsent : sent_tokenize ([] : List Char) = [] := rfl
    rw [hsent]
    simp [covered]
  · exact chunkCore_covered cz co (sent_tokenize text) [] 0
      (fun s hs => sent_tokenize_wf hs)

theorem isSubstr_of_mid {p l : List Char} (h : p <:+: l) : isSubstr p l = true := by
  induction l with
  | nil =>
    rw [List.infix_nil] at h
    subst h
    rfl
  | cons c cs ih =>
    rw [isSubstr]
    rcases List.infix_cons_iff.mp h with hp | hi
    · rw [List.isPrefixOf_iff_prefix.mpr hp]
      rfl
    · rw [ih hi]
      simp

theorem score_mem_tau : final_score qMem dTau.text = 0.3 := by
  simp [qMem, dTau, final_score, similarity_score, overlap, total_words,
    keyword_matches, phrase_matches, question_keywords, alzheimer_match,
    alzheimer_terms, wordSet, pyLower, wsplit, pyIsSpace, pyToLower, isSubstr,
    List.isPrefixOf]
  norm_num

theorem includes_mem_tau : includesDoc qMem dTau :=
  Or.inl (by rw [score_mem_tau]; norm_num)

theorem relevant_docs_tau :
    relevant_docs [dTau] qMem = [⟨1, dTau.text, ⟨none⟩, 0.3⟩] := by
  simp only [relevant_docs, scoreDocs, if_pos includes_mem_tau, mkScored, score_mem_tau]
  rfl

theorem ranked_tau : ranked [dTau] qMem = [⟨1, dTau.text, ⟨none⟩, 0.3⟩] := by
  rw [ranked, relevant_docs_tau]
  simp only [sortDesc, insertDesc]

theorem infix_mid (X Y l : List Char) : l <:+: (X ++ l) ++ Y := ⟨X, Y, by simp⟩

theorem infix_mid2 (X Y Z l : List Char) : l <:+: ((X ++ l) ++ Y) ++ Z :=
  ⟨X, Y ++ Z, by simp⟩

theorem infix_left3 (Y Z W l : List Char) : l <:+: ((l ++ Y) ++ Z) ++ W :=
  ⟨[], Y ++ Z ++ W, by simp⟩

/-- C7 (amended): on an empty candidate list the answer is the fixed
no-information template naming the query; on a non-empty list the answer
names the query, cites the title metadata of the top passage when present,
appends the fixed disclaimer, and quotes the first 200 characters of the top
passage text only when that text is longer than 100 characters — a top
passage with at most 100 characters of text is not quoted at all. -/
theorem C7_answer_template (docs : List Doc) (q : List Char) (k : ℤ) :
    (ranked docs q = [] → (query docs q k).answer = noInfoAnswer q) ∧
    (∀ top rest, ranked docs q = top :: rest →
      isSubstr q ((query docs q k).answer) = true ∧
      (∀ tl, top.metadata.title = some tl →
        isSubstr tl ((query docs q k).answer) = true) ∧
      (100 < top.text.length →
        isSubstr (top.text.take 200) ((query docs q k).answer) = true) ∧
      (top.text.length ≤ 100 →
        (query docs q k).answer =
          ansHeader q ++
          ((match top.metadata.title with
            | some tl => titleLine tl
            | none => []) ++ disclaimer)) ∧
      isSubstr disclaimer ((query docs q k).answer) = true) := by
  have hans : (query docs q k).answer = mkAnswer q (ranked docs q) := rfl
  constructor
  · intro h
    rw [hans, h]
    rfl
  · intro top rest hr
    rw [hans, hr, mkAnswer]
    refine ⟨?_, ?_, ?_, ?_, ?_⟩
    · apply isSubstr_of_mid
      have h1 : q <:+: ansHeader q := by
        rw [ansHeader]
        refine ⟨"Based on the available Alzheimer".toList ++ apos ::
          "s research, here".toList ++ apos :: "s what I found about ".toList ++
          [apos], apos :: ":\n\n".toList, ?_⟩
        simp
      exact h1.trans (infix_left3 _ _ _ _)
    · intro tl htl
      simp only [htl]
      apply isSubstr_of_mid
      have h1 : tl <:+: titleLine tl := by
        rw [titleLine]
        exact ⟨"Research from ".toList ++ [apos], apos :: " indicates:\n".toList,
          by simp⟩
      exact h1.trans (infix_mid2 _ _ _ _)
    · intro hlong
      rw [if_pos hlong]
      apply isSubstr_of_mid
      have h1 : top.text.take 200 <:+: quoteBlock top.text := by
        rw [quoteBlock]
        exact ⟨['"'], "...\"\n\n".toList, by simp⟩
      exact h1.trans (infix_mid _ _ _)
    · intro hshort
      rw [if_neg (by omega)]
      simp
    · apply isSubstr_of_mid
      exact (List.suffix_append _ _).isInfix

/-- Witness for C7: the empty store produces the no-information template for
the query, and a concrete populated store produces an answer containing the
disclaimer. -/
theorem C7_answer_template_witness :
    (query [] qAlz 3).answer = noInfoAnswer qAlz ∧
    isSubstr disclaimer ((query [dAlz] qAlz 3).answer) = true :=
  ⟨(C7_answer_template [] qAlz 3).1 rfl,
   ((C7_answer_template [dAlz] qAlz 3).2 _ _ ranked_single).2.2.2.2⟩

/-- Counterexample to C7: for the store holding the three-character passage
`tau` and the query `memory`, the candidate list is non-empty with `tau` as
top passage, yet the answer does not quote the first 200 characters of that
passage text (`tau` occurs nowhere in the answer), because the source only
quotes texts longer than 100 characters. -/
theorem C7_counterexample :
    ranked [dTau] qMem = [⟨1, dTau.text, ⟨none⟩, 0.3⟩] ∧
    isSubstr ((⟨1, dTau.text, ⟨none⟩, 0.3⟩ : ScoredDoc).text.take 200)
      ((query [dTau] qMem 3).answer) = false := by
  refine ⟨ranked_tau, ?_⟩
  show isSubstr _ (mkAnswer qMem (ranked [dTau] qMem)) = false
  rw [ranked_tau]
  decide

theorem pyToLower_not_upper (c : Char) : pyToLower c ∉ upperChars := by
  intro hmem
  unfold pyToLower at hmem
  split at hmem
  all_goals first
    | exact absurd hmem (by decide)
    | (fin_cases hmem <;> simp_all)

theorem pyToLower_good {c : Char} (h : c ∈ lowerChars ∨ c = ' ') :
    pyToLower c = c := by
  rcases h with h | rfl
  · fin_cases h <;> decide
  · decide

theorem contains_mem {l : List Char} {a : Char} (h : l.contains a = true) : a ∈ l := by
  simpa using h

theorem remTags_cons_nodrop {cs : List Char}
    (hdrop : List.dropWhile (fun x => decide (x ≠ '>')) cs = []) :
    remTags ('<' :: cs) = '<' :: remTags cs := by
  simp only [remTags]
  rw [if_pos trivial]
  split
  · rfl
  · rename_i heq
    rw [hdrop] at heq
    cases heq

theorem remTags_cons_take {cs : List Char} {hd : Char} {after : List Char}
    (hdrop : List.dropWhile (fun x => decide (x ≠ '>')) cs = hd :: after)
    (htake : List.takeWhile (fun x => decide (x ≠ '>')) cs = []) :
    remTags ('<' :: cs) = '<' :: remTags cs := by
  simp only [remTags]
  rw [if_pos trivial]
  split
  · rfl
  · rename_i heq
    rw [if_pos htake]

theorem remTags_cons_match {cs : List Char} {hd : Char} {after : List Char}
    (hdrop : List.dropWhile (fun x => decide (x ≠ '>')) cs = hd :: after)
    (htake : ¬ List.takeWhile (fun x => decide (x ≠ '>')) cs = []) :
    remTags ('<' :: cs) = remTags after := by
  simp only [remTags]
  rw [if_pos trivial]
  split
  · rename_i heq
    rw [heq] at hdrop
    cases hdrop
  · rename_i hd2 after2 heq
    rw [if_neg htake]
    rw [heq] at hdrop
    injection hdrop with h1 h2
    rw [h2]

theorem remTags_cons_other {c : Char} {cs : List Char} (hne : ¬ c = '<') :
    remTags (c :: cs) = c :: remTags cs := by
  simp only [remTags]
  rw [if_neg hne]

theorem remTags_subset (l : List Char) : ∀ c ∈ remTags l, c ∈ l := by
  induction l using remTags.induct with
  | case1 =>
    intro c hc
    simp [remTags] at hc
  | case2 cs hdrop ih =>
    intro c hc
    rw [remTags_cons_nodrop hdrop] at hc
    rcases List.mem_cons.mp hc with rfl | hc2
    · exact List.mem_cons_self _ _
    · exact List.mem_cons_of_mem _ (ih c hc2)
  | case3 cs head after hdrop htake ih =>
    intro c hc
    rw [remTags_cons_take hdrop htake] at hc
    rcases List.mem_cons.mp hc with rfl | hc2
    · exact List.mem_cons_self _ _
    · exact List.mem_cons_of_mem _ (ih c hc2)
  | case4 cs head after hdrop htake ih =>
    intro c hc
    rw [remTags_cons_match hdrop htake] at hc
    have hsub : (head :: after).Sublist cs := by
      have h1 := List.dropWhile_sublist (l := cs) (fun x => decide (x ≠ '>'))
      rwa [hdrop] at h1
    exact List.mem_cons_of_mem _ (hsub.subset (List.mem_cons_of_mem _ (ih c hc)))
  | case5 c2 cs hne ih =>
    intro c hc
    rw [remTags_cons_other hne] at hc
    rcases List.mem_cons.mp hc with rfl | hc2
    · exact List.mem_cons_self _ _
    · exact List.mem_cons_of_mem _ (ih c hc2)

theorem remUrls_subset (l : List Char) : ∀ c ∈ remUrls l, c ∈ l := by
  induction l using remUrls.induct with
  | case1 =>
    intro c hc
    simp [remUrls] at hc
  | case2 c2 cs hcond ih =>
    intro c hc
    have heq : remUrls (c2 :: cs) =
        remUrls (List.dropWhile isUrlChar (List.drop 8 (c2 :: cs))) := by
      rw [remUrls, dif_pos hcond]
    rw [heq] at hc
    have h1 := ih c hc
    have h2 := (List.dropWhile_sublist (l := List.drop 8 (c2 :: cs)) isUrlChar).subset h1
    exact (List.drop_sublist 8 (c2 :: cs)).subset h2
  | case3 c2 cs hcond1 hcond2 ih =>
    intro c hc
    have heq : remUrls (c2 :: cs) =
        remUrls (List.dropWhile isUrlChar (List.drop 7 (c2 :: cs))) := by
      rw [remUrls, dif_neg hcond1, dif_pos hcond2]
    rw [heq] at hc
    have h1 := ih c hc
    have h2 := (List.dropWhile_sublist (l := List.drop 7 (c2 :: cs)) isUrlChar).subset h1
    exact (List.drop_sublist 7 (c2 :: cs)).subset h2
  | case4 c2 cs hcond1 hcond2 ih =>
    intro c hc
    have heq : remUrls (c2 :: cs) = c2 :: remUrls cs := by
      rw [remUrls, dif_neg hcond1, dif_neg hcond2]
    rw [heq] at hc
    rcases List.mem_cons.mp hc with rfl | hc2
    · exact List.mem_cons_self _ _
    · exact List.mem_cons_of_mem _ (ih c hc2)

theorem remEmails_subset (l : List Char) : ∀ c ∈ remEmails l, c ∈ l := by
  induction l using remEmails.induct with
  | case1 =>
    intro c hc
    simp [remEmails] at hc
  | case2 c2 cs hsp ih =>
    intro c hc
    have heq : remEmails (c2 :: cs) = c2 :: remEmails cs := by
      simp [remEmails, hsp]
    rw [heq] at hc
    rcases List.mem_cons.mp hc with rfl | hc2
    · exact List.mem_cons_self _ _
    · exact List.mem_cons_of_mem _ (ih c hc2)
  | case3 c2 cs hsp ih =>
    intro c hc
    have heq : remEmails (c2 :: cs) =
        (if (((c2 :: cs.takeWhile (fun x => !pyIsSpace x)).drop 1).dropLast).contains '@'
          then []
          else c2 :: cs.takeWhile (fun x => !pyIsSpace x)) ++
          remEmails (cs.dropWhile (fun x => !pyIsSpace x)) := by
      rw [remEmails, if_neg hsp]
    rw [heq] at hc
    rcases List.mem_append.mp hc with hc1 | hc2
    · split at hc1
      · simp at hc1
      · rcases List.mem_cons.mp hc1 with rfl | hc3
        · exact List.mem_cons_self _ _
        · have := List.mem_takeWhile_imp hc3
          exact List.mem_cons_of_mem _
            ((List.takeWhile_sublist (l := cs) _).subset hc3)
    · have h1 := ih c hc2
      exact List.mem_cons_of_mem _
        ((List.dropWhile_sublist (l := cs) _).subset h1)

theorem remTags_id (l : List Char) (h : ∀ c ∈ l, c ≠ '<') : remTags l = l := by
  induction l using remTags.induct with
  | case1 => simp [remTags]
  | case2 cs hdrop ih => exact absurd rfl (h '<' (List.mem_cons_self _ _))
  | case3 cs hd after hdrop htake ih => exact absurd rfl (h '<' (List.mem_cons_self _ _))
  | case4 cs hd after hdrop htake ih => exact absurd rfl (h '<' (List.mem_cons_self _ _))
  | case5 c cs hne ih =>
    rw [remTags_cons_other hne, ih (fun c2 hc2 => h c2 (List.mem_cons_of_mem _ hc2))]

theorem remUrls_id (l : List Char) (h : ∀ c ∈ l, c ≠ ':') : remUrls l = l := by
  induction l using remUrls.induct with
  | case1 => simp [remUrls]
  | case2 c cs hcond ih =>
    exfalso
    have hpre := List.isPrefixOf_iff_prefix.mp hcond.1
    have hmem : ':' ∈ (c :: cs) := hpre.subset (by decide : ':' ∈ ("https://".toList))
    exact h ':' hmem rfl
  | case3 c cs h1 hcond ih =>
    exfalso
    have hpre := List.isPrefixOf_iff_prefix.mp hcond.1
    have hmem : ':' ∈ (c :: cs) := hpre.subset (by decide : ':' ∈ ("http://".toList))
    exact h ':' hmem rfl
  | case4 c cs h1 h2 ih =>
    rw [remUrls, dif_neg h1, dif_neg h2,
      ih (fun c2 hc2 => h c2 (List.mem_cons_of_mem _ hc2))]

theorem remEmails_id (l : List Char) (h : ∀ c ∈ l, c ≠ '@') : remEmails l = l := by
  induction l using remEmails.induct with
  | case1 => simp [remEmails]
  | case2 c cs hsp ih =>
    rw [remEmails, if_pos hsp, ih (fun c2 hc2 => h c2 (List.mem_cons_of_mem _ hc2))]
  | case3 c cs hsp ih =>
    rw [remEmails, if_neg hsp]
    have hnc : ¬((((c :: cs.takeWhile (fun x => !pyIsSpace x)).drop 1).dropLast).contains '@'
        = true) := by
      intro hcon
      have hmem := contains_mem hcon
      have h1 : '@' ∈ (c :: cs.takeWhile (fun x => !pyIsSpace x)).drop 1 :=
        (List.dropLast_sublist _).subset hmem
      have h2 : '@' ∈ c :: cs.takeWhile (fun x => !pyIsSpace x) :=
        (List.drop_sublist 1 _).subset h1
      rcases List.mem_cons.mp h2 with heq | h3
      · exact h c (List.mem_cons_self _ _) heq.symm
      · exact h '@' (List.mem_cons_of_mem _
          ((List.takeWhile_sublist (l := cs) _).subset h3)) rfl
    rw [if_neg hnc,
      ih (fun c2 hc2 => h c2 (List.mem_cons_of_mem _
        ((List.dropWhile_sublist (l := cs) _).subset hc2))),
      List.cons_append, List.takeWhile_append_dropWhile]

theorem mem_toLettersSpace {v : List Char} {c : Char} (h : c ∈ toLettersSpace v) :
    c = ' ' ∨ (c ∈ v ∧ (c ∈ lowerChars ∨ c ∈ upperChars ∨ pyIsSpace c = true)) := by
  rw [toLettersSpace] at h
  obtain ⟨c₀, hc₀, heq⟩ := List.mem_map.mp h
  split at heq
  · rename_i hcond
    subst heq
    right
    refine ⟨hc₀, ?_⟩
    have h2 : (c₀ ∈ lowerChars ∨ c₀ ∈ upperChars) ∨ pyIsSpace c₀ = true := by
      simpa using hcond
    tauto
  · rename_i hcond
    subst heq
    exact Or.inl rfl

theorem toLettersSpace_id {l : List Char} (h : ∀ c ∈ l, c ∈ lowerChars ∨ c = ' ') :
    toLettersSpace l = l := by
  rw [toLettersSpace]
  have hcongr : ∀ c ∈ l,
      (if (c ∈ lowerChars || c ∈ upperChars || pyIsSpace c) = true then c else ' ') = id c := by
    intro c hc
    rcases h c hc with hc2 | rfl
    · rw [if_pos (by simp [hc2])]
      rfl
    · rw [if_pos (by decide)]
      rfl
  rw [List.map_congr_left hcongr, List.map_id]

theorem pyLower_id {l : List Char} (h : ∀ c ∈ l, c ∈ lowerChars ∨ c = ' ') :
    pyLower l = l := by
  have hcongr : ∀ c ∈ l, pyToLower c = id c := fun c hc => pyToLower_good (h c hc)
  rw [pyLower, List.map_congr_left hcongr, List.map_id]

theorem wsplit_words {z : List Char} :
    ∀ w ∈ wsplit z, w ≠ [] ∧ ∀ c ∈ w, pyIsSpace c = false ∧ c ∈ z := by
  induction z using wsplit.induct with
  | case1 =>
    intro w hw
    simp [wsplit] at hw
  | case2 c cs hsp ih =>
    intro w hw
    rw [wsplit, if_pos hsp] at hw
    obtain ⟨h1, h2⟩ := ih w hw
    exact ⟨h1, fun ch hch => ⟨(h2 ch hch).1, List.mem_cons_of_mem _ (h2 ch hch).2⟩⟩
  | case3 c cs hsp ih =>
    intro w hw
    rw [wsplit, if_neg hsp] at hw
    rcases List.mem_cons.mp hw with rfl | hw2
    · refine ⟨by simp, ?_⟩
      intro ch hch
      rcases List.mem_cons.mp hch with rfl | hch2
      · exact ⟨by simpa using hsp, List.mem_cons_self _ _⟩
      · have hp := List.mem_takeWhile_imp hch2
        exact ⟨by simpa using hp, List.mem_cons_of_mem _
          ((List.takeWhile_sublist (l := cs) _).subset hch2)⟩
    · obtain ⟨h1, h2⟩ := ih w hw2
      exact ⟨h1, fun ch hch => ⟨(h2 ch hch).1, List.mem_cons_of_mem _
        ((List.dropWhile_sublist (l := cs) _).subset (h2 ch hch).2)⟩⟩

theorem joinWords_cons_cons (w v : List Char) (vs : List (List Char)) :
    joinWords (w :: v :: vs) = w ++ ' ' :: joinWords (v :: vs) := by
  rw [joinWords]
  exact List.cons_ne_nil v vs

theorem mem_joinWords : ∀ {ws : List (List Char)} {c : Char}, c ∈ joinWords ws →
    c = ' ' ∨ ∃ w ∈ ws, c ∈ w := by
  intro ws
  induction ws with
  | nil =>
    intro c hc
    simp [joinWords] at hc
  | cons w ws ih =>
    intro c hc
    cases ws with
    | nil =>
      rw [joinWords] at hc
      exact Or.inr ⟨w, List.mem_cons_self _ _, hc⟩
    | cons v vs =>
      rw [joinWords_cons_cons] at hc
      rcases List.mem_append.mp hc with h1 | h2
      · exact Or.inr ⟨w, List.mem_cons_self _ _, h1⟩
      · rcases List.mem_cons.mp h2 with rfl | h3
        · exact Or.inl rfl
        · rcases ih h3 with h4 | ⟨w2, hw2, hc2⟩
          · exact Or.inl h4
          · exact Or.inr ⟨w2, List.mem_cons_of_mem _ hw2, hc2⟩

theorem takeWhile_all_append {p : Char → Bool} {w : List Char}
    (hw : ∀ c ∈ w, p c = true) (t : List Char) :
    (w ++ t).takeWhile p = w ++ t.takeWhile p ∧ (w ++ t).dropWhile p = t.dropWhile p := by
  induction w with
  | nil => simp
  | cons c cs ih =>
    have hc := hw c (List.mem_cons_self _ _)
    have ih2 := ih (fun x hx => hw x (List.mem_cons_of_mem _ hx))
    constructor
    · rw [List.cons_append, List.takeWhile_cons, if_pos hc, ih2.1, List.cons_append]
    · rw [List.cons_append, List.dropWhile_cons, if_pos hc, ih2.2]

theorem wsplit_joinWords : ∀ {ws : List (List Char)},
    (∀ w ∈ ws, w ≠ [] ∧ ∀ c ∈ w, pyIsSpace c = false) →
    wsplit (joinWords ws) = ws := by
  intro ws
  induction ws with
  | nil =>
    intro _
    simp [joinWords, wsplit]
  | cons w ws ih =>
    intro h
    obtain ⟨hne, hch⟩ := h w (List.mem_cons_self _ _)
    cases ws with
    | nil =>
      rw [joinWords]
      cases w with
      | nil => exact absurd rfl hne
      | cons c cs =>
        have hc : pyIsSpace c = false := hch c (List.mem_cons_self _ _)
        have hall : ∀ x ∈ cs, (fun x => !pyIsSpace x) x = true := by
          intro x hx
          simp [hch x (List.mem_cons_of_mem _ hx)]
        obtain ⟨ht, hd⟩ := takeWhile_all_append hall []
        rw [List.append_nil] at ht hd
        rw [wsplit, if_neg (by simp [hc]), ht, hd]
        rw [show List.takeWhile (fun x => !pyIsSpace x) [] = ([] : List Char) from rfl,
          show List.dropWhile (fun x => !pyIsSpace x) [] = ([] : List Char) from rfl,
          List.append_nil]
        rw [show wsplit [] = ([] : List (List Char)) by simp [wsplit]]
    | cons v vs =>
      rw [joinWords_cons_cons]
      cases w with
      | nil => exact absurd rfl hne
      | cons c cs =>
        have hc : pyIsSpace c = false := hch c (List.mem_cons_self _ _)
        have hall : ∀ x ∈ cs, (fun x => !pyIsSpace x) x = true := by
          intro x hx
          simp [hch x (List.mem_cons_of_mem _ hx)]
        obtain ⟨ht, hd⟩ := takeWhile_all_append hall (' ' :: joinWords (v :: vs))
        rw [List.cons_append, wsplit, if_neg (by simp [hc]), ht, hd]
        rw [List.takeWhile_cons, if_neg (by decide), List.dropWhile_cons,
          if_neg (by decide), List.append_nil]
        rw [wsplit, if_pos (by decide)]
        rw [ih (fun w2 hw2 => h w2 (List.mem_cons_of_mem _ hw2))]

theorem clean_text_good (x : List Char) :
    ∀ c ∈ clean_text x, c ∈ lowerChars ∨ c = ' ' := by
  intro c hc
  rw [clean_text] at hc
  split at hc
  · simp at hc
  · rcases mem_joinWords hc with rfl | ⟨w, hw, hcw⟩
    · exact Or.inr rfl
    · obtain ⟨-, hprops⟩ := wsplit_words w hw
      obtain ⟨hns, hcz⟩ := hprops c hcw
      rcases mem_toLettersSpace hcz with rfl | ⟨hcv, hkind⟩
      · exact Or.inr rfl
      · rcases hkind with hlow | hup | hsp
        · exact Or.inl hlow
        · exfalso
          have h1 := remEmails_subset _ c hcv
          have h2 := remUrls_subset _ c h1
          have h3 := remTags_subset _ c h2
          obtain ⟨c₀, -, heq⟩ := List.mem_map.mp h3
          rw [← heq] at hup
          exact pyToLower_not_upper c₀ hup
        · rw [hsp] at hns
          cases hns

/-- C8: `clean_text` is idempotent: applying the normalizer twice gives the
same string as applying it once. -/
theorem C8_normalize_idempotent (x : List Char) :
    clean_text (clean_text x) = clean_text x := by
  by_cases hx : x = []
  · subst hx
    rfl
  · by_cases hy : clean_text x = []
    · rw [hy]
      rfl
    · have hgood := clean_text_good x
      have hne : ∀ (d : Char), d ∉ lowerChars → d ≠ ' ' →
          ∀ c ∈ clean_text x, c ≠ d := by
        intro d hd1 hd2 c hc
        rcases hgood c hc with h | rfl
        · intro heq
          subst heq
          exact hd1 h
        · exact fun heq => hd2 heq.symm
      rw [clean_text, if_neg hy, pyLower_id hgood,
        remTags_id _ (hne '<' (by decide) (by decide)),
        remUrls_id _ (hne ':' (by decide) (by decide)),
        remEmails_id _ (hne '@' (by decide) (by decide)),
        toLettersSpace_id hgood]
      conv_rhs => rw [clean_text, if_neg hx]
      conv_lhs => rw [clean_text, if_neg hx]
      congr 1
      apply wsplit_joinWords
      intro w hw
      obtain ⟨h1, h2⟩ := wsplit_words w hw
      exact ⟨h1, fun c hc => (h2 c hc).1⟩

end ARag
